import Mathlib

/-!
Verification of the text-wrapping and text-window module
(`system/ui/text.py`) of the openpilot UI.

Strings are modelled as `List Char`; the font-measurement collaborator
`rl.measure_text_ex(font, s, font_size, 0).x` is modelled as an abstract
function `m : List Char → Int` applied at the ambient font and font size,
so `wrap_text` here takes the measurement function in place of the
`font_size` argument of the Python source.
-/

namespace OpenpilotText

/-- Python whitespace class (`str.strip`, `\s`), ASCII range. -/
def isWS (c : Char) : Bool :=
  c = ' ' || c = '\t' || c = '\n' || c = '\r' || c = '\x0b' || c = '\x0c'

/-- `text.split(sep)` of Python: always returns one more chunk than there
are separators; `"".split(sep) = [""]`. -/
def splitOn (sep : Char) : List Char → List (List Char)
  | [] => [[]]
  | c :: rest =>
    match splitOn sep rest with
    | [] => [[]]
    | l :: ls => if c = sep then [] :: l :: ls else (c :: l) :: ls

/-- `re.split("(\s+)", s)`: alternating chunks, starting and ending with a
(possibly empty) non-whitespace chunk, whitespace runs kept as separators. -/
def tokenize : List Char → List (List Char)
  | [] => [[]]
  | c :: rest =>
    match tokenize rest with
    | [] => [[c]]
    | w :: ts =>
      if isWS c then
        match w, ts with
        | [], sp :: ts2 => [] :: (c :: sp) :: ts2
        | _, _ => [] :: [c] :: w :: ts
      else
        (c :: w) :: ts

/-- Python `str.rstrip()`. -/
def rstrip (s : List Char) : List Char :=
  (s.reverse.dropWhile isWS).reverse

/-- `not paragraph.strip()`: the paragraph is empty or all whitespace. -/
def isBlank (p : List Char) : Bool :=
  p.all isWS

/-- The `while len(words):` loop of `wrap_text`: pops a word and the
following whitespace run (empty when the word is last), commits the
candidate line when it measures within `mw`, otherwise pushes the current
line and restarts from the word plus one space.  Returns the pushed lines
and the final current line. -/
def wrapLoop (m : List Char → Int) (mw : Int) :
    List (List Char) → List Char → List (List Char) × List Char
  | [], current => ([], current)
  | [word], current =>
    if m (current ++ word) ≤ mw then ([], current ++ word)
    else ([current], word ++ [' '])
  | word :: sp :: rest, current =>
    if m (current ++ word ++ sp) ≤ mw then
      wrapLoop m mw rest (current ++ word ++ sp)
    else
      let r := wrapLoop m mw rest (word ++ [' '])
      (current :: r.1, r.2)

/-- The body of the `for paragraph in text.split("\n")` loop for one
non-blank paragraph: indent capture, tokenisation, greedy fill, final
rstrip-and-push. -/
def wrapParagraph (m : List Char → Int) (mw : Int) (p : List Char) :
    List (List Char) :=
  let indent := p.takeWhile isWS
  let body := p.dropWhile isWS
  let r := wrapLoop m mw (tokenize body) indent
  let fin := rstrip r.2
  r.1 ++ (if fin.isEmpty then [] else [fin])

/-- `wrap_text(text, font_size, max_width)` of `system/ui/text.py`, with
the measurement collaborator abstracted as `m`. -/
def wrap_text (m : List Char → Int) (mw : Int) (text : List Char) :
    List (List Char) :=
  (splitOn '\n' text).foldl
    (fun lines p =>
      if isBlank p then (if lines.isEmpty then lines else lines ++ [[]])
      else lines ++ wrapParagraph m mw p)
    []

/-- The maximal non-whitespace runs (words) of a string, in order. -/
def wordsOf : List Char → List (List Char)
  | [] => []
  | [c] => if isWS c then [] else [[c]]
  | c :: d :: rest =>
    if isWS c then wordsOf (d :: rest)
    else if isWS d then [c] :: wordsOf (d :: rest)
    else
      match wordsOf (d :: rest) with
      | [] => [[c]]
      | w :: ts => (c :: w) :: ts

/-- The word chunks (even positions, nonempty) of an alternating token
list, i.e. the words the wrap loop distributes over lines. -/
def wordChunks : List (List Char) → List (List Char)
  | [] => []
  | [w] => if w.isEmpty then [] else [w]
  | w :: _ :: rest => (if w.isEmpty then [] else [w]) ++ wordChunks rest

/-- Measurement is monotone under string extension on the right. -/
def MonoM (m : List Char → Int) : Prop :=
  ∀ p q : List Char, m p ≤ m (p ++ q)

/-- A concrete monotone measurement used for witnesses: string length. -/
def lenM (s : List Char) : Int :=
  (s.length : Int)

theorem lenM_mono : MonoM lenM := by
  intro p q
  simp only [lenM, List.length_append]
  omega

theorem splitOn_cons (sep c : Char) (rest : List Char) :
    splitOn sep (c :: rest) =
      match splitOn sep rest with
      | [] => [[]]
      | l :: ls => if c = sep then [] :: l :: ls else (c :: l) :: ls := rfl

theorem tokenize_cons (c : Char) (rest : List Char) :
    tokenize (c :: rest) =
      match tokenize rest with
      | [] => [[c]]
      | w :: ts =>
        if isWS c then
          match w, ts with
          | [], sp :: ts2 => [] :: (c :: sp) :: ts2
          | _, _ => [] :: [c] :: w :: ts
        else
          (c :: w) :: ts := rfl

theorem splitOn_ne_nil (sep : Char) (s : List Char) : splitOn sep s ≠ [] := by
  cases s with
  | nil => simp [splitOn]
  | cons c rest =>
    rw [splitOn_cons]
    cases h : splitOn sep rest with
    | nil => simp
    | cons l ls =>
      dsimp only
      split <;> simp

theorem splitOn_eq_single (sep : Char) (s : List Char) (h : sep ∉ s) :
    splitOn sep s = [s] := by
  induction s with
  | nil => rfl
  | cons c rest ih =>
    rw [List.mem_cons, not_or] at h
    have hc : ¬ (c = sep) := fun e => h.1 e.symm
    rw [splitOn_cons, ih h.2]
    simp [hc]

theorem splitOn_append (sep : Char) (p s : List Char) (h : sep ∉ p) :
    splitOn sep (p ++ sep :: s) = p :: splitOn sep s := by
  induction p with
  | nil =>
    simp only [List.nil_append, splitOn_cons]
    cases hseq : splitOn sep s with
    | nil => exact absurd hseq (splitOn_ne_nil sep s)
    | cons l ls => simp
  | cons c p' ih =>
    rw [List.mem_cons, not_or] at h
    have hc : ¬ (c = sep) := fun e => h.1 e.symm
    simp only [List.cons_append, splitOn_cons, ih h.2]
    simp [hc]

theorem tokenize_ne_nil (s : List Char) : tokenize s ≠ [] := by
  cases s with
  | nil => simp [tokenize]
  | cons c rest =>
    rw [tokenize_cons]
    cases h : tokenize rest with
    | nil => simp
    | cons w ts =>
      dsimp only
      by_cases hc : isWS c = true
      · rcases w with _ | ⟨d, w'⟩ <;> rcases ts with _ | ⟨sp, ts2⟩ <;> simp [hc]
      · simp [hc]

theorem join_tokenize (s : List Char) : (tokenize s).flatten = s := by
  induction s with
  | nil => simp [tokenize]
  | cons c rest ih =>
    rw [tokenize_cons]
    cases h : tokenize rest with
    | nil => exact absurd h (tokenize_ne_nil rest)
    | cons w ts =>
      rw [h] at ih
      simp only [List.flatten_cons] at ih
      by_cases hc : isWS c = true
      · rcases w with _ | ⟨d, w'⟩ <;> rcases ts with _ | ⟨sp, ts2⟩ <;>
          simp_all [List.flatten_cons]
      · simp_all [List.flatten_cons]

/-- The string ends with a whitespace character, or is empty. -/
def wsEnd (l : List Char) : Prop :=
  ∀ c, l.getLast? = some c → isWS c = true

theorem wsEnd_nil : wsEnd [] := by
  intro c h
  simp at h

theorem wsEnd_all_ws (l : List Char) (h : ∀ c ∈ l, isWS c = true) :
    wsEnd l :=
  fun c hc => h c (List.mem_of_getLast?_eq_some hc)

theorem wsEnd_append (a sp : List Char) (hne : sp ≠ [])
    (h : ∀ c ∈ sp, isWS c = true) : wsEnd (a ++ sp) := by
  intro c hc
  rw [List.getLast?_append_of_ne_nil a hne] at hc
  exact h c (List.mem_of_getLast?_eq_some hc)

theorem wsEnd_cons_cons (c d : Char) (l : List Char)
    (h : wsEnd (c :: d :: l)) : wsEnd (d :: l) := by
  intro e he
  exact h e (by rw [List.getLast?_cons_cons]; exact he)

theorem wordsOf_cons_cons (c d : Char) (rest : List Char) :
    wordsOf (c :: d :: rest) =
      if isWS c then wordsOf (d :: rest)
      else if isWS d then [c] :: wordsOf (d :: rest)
      else
        match wordsOf (d :: rest) with
        | [] => [[c]]
        | w :: ts => (c :: w) :: ts := rfl

theorem wordsOf_cons_ws (c : Char) (l : List Char) (hc : isWS c = true) :
    wordsOf (c :: l) = wordsOf l := by
  cases l with
  | nil => simp [wordsOf, hc]
  | cons d rest =>
    rw [wordsOf_cons_cons]
    simp [hc]

theorem wordsOf_all_ws (l : List Char) (h : ∀ c ∈ l, isWS c = true) :
    wordsOf l = [] := by
  induction l with
  | nil => rfl
  | cons c rest ih =>
    rw [wordsOf_cons_ws c rest (h c (List.mem_cons_self c rest))]
    exact ih (fun d hd => h d (List.mem_cons_of_mem c hd))

theorem wordsOf_head_shape (l : List Char) (d : Char) (hd : isWS d = false) :
    ∃ w ts, wordsOf (d :: l) = (d :: w) :: ts := by
  induction l generalizing d with
  | nil => exact ⟨[], [], by simp [wordsOf, hd]⟩
  | cons e l' ih =>
    by_cases he : isWS e = true
    · exact ⟨[], wordsOf (e :: l'), by rw [wordsOf_cons_cons]; simp [hd, he]⟩
    · obtain ⟨w, ts, hw⟩ := ih e (by simpa using he)
      refine ⟨e :: w, ts, ?_⟩
      rw [wordsOf_cons_cons, hw]
      simp [hd, he]

theorem wordsOf_nonws (w : List Char) (hne : w ≠ [])
    (h : ∀ c ∈ w, isWS c = false) : wordsOf w = [w] := by
  induction w with
  | nil => exact absurd rfl hne
  | cons c w' ih =>
    have hc : isWS c = false := h c (List.mem_cons_self c w')
    cases w' with
    | nil => simp [wordsOf, hc]
    | cons d w'' =>
      have hd : isWS d = false := h d (by simp)
      have := ih (by simp) (fun e he => h e (List.mem_cons_of_mem c he))
      rw [wordsOf_cons_cons, this]
      simp [hc, hd]

theorem wordsOf_append (a b : List Char) (h : wsEnd a) :
    wordsOf (a ++ b) = wordsOf a ++ wordsOf b := by
  induction a with
  | nil => simp [wordsOf]
  | cons c a' ih =>
    cases a' with
    | nil =>
      have hc : isWS c = true := h c rfl
      rw [List.cons_append, List.nil_append, wordsOf_cons_ws c b hc]
      simp [wordsOf, hc]
    | cons d a'' =>
      have h' : wsEnd (d :: a'') := wsEnd_cons_cons c d a'' h
      have ihr := ih h'
      simp only [List.cons_append] at ihr ⊢
      by_cases hc : isWS c = true
      · rw [wordsOf_cons_ws c _ hc, wordsOf_cons_ws c _ hc]
        exact ihr
      · have hcf : isWS c = false := by simpa using hc
        by_cases hd : isWS d = true
        · rw [wordsOf_cons_cons, wordsOf_cons_cons]
          simp only [hcf, hd, Bool.false_eq_true, if_false, if_true]
          rw [ihr, List.cons_append]
        · have hdf : isWS d = false := by simpa using hd
          obtain ⟨w, ts, hw⟩ := wordsOf_head_shape a'' d hdf
          rw [wordsOf_cons_cons, wordsOf_cons_cons, ihr, hw]
          simp [hcf, hdf, List.cons_append]

theorem wordsOf_append_ws (a b : List Char) (h : ∀ c ∈ b, isWS c = true) :
    wordsOf (a ++ b) = wordsOf a := by
  induction a with
  | nil => simpa using wordsOf_all_ws b h
  | cons c a' ih =>
    cases a' with
    | nil =>
      by_cases hc : isWS c = true
      · rw [List.cons_append, List.nil_append, wordsOf_cons_ws c b hc,
          wordsOf_all_ws b h]
        simp [wordsOf, hc]
      · have hcf : isWS c = false := by simpa using hc
        cases b with
        | nil => simp
        | cons e b' =>
          have he : isWS e = true := h e (List.mem_cons_self e b')
          rw [List.cons_append, List.nil_append, wordsOf_cons_cons]
          simp only [hcf, he, Bool.false_eq_true, if_false, if_true]
          rw [wordsOf_all_ws (e :: b') h]
          simp [wordsOf, hcf]
    | cons d a'' =>
      simp only [List.cons_append] at ih ⊢
      by_cases hc : isWS c = true
      · rw [wordsOf_cons_ws c _ hc, wordsOf_cons_ws c _ hc]
        exact ih
      · have hcf : isWS c = false := by simpa using hc
        by_cases hd : isWS d = true
        · rw [wordsOf_cons_cons, wordsOf_cons_cons]
          simp only [hcf, hd, Bool.false_eq_true, if_false, if_true]
          rw [ih]
        · have hdf : isWS d = false := by simpa using hd
          rw [wordsOf_cons_cons, wordsOf_cons_cons, ih]

theorem rstrip_decomp (s : List Char) :
    rstrip s ++ (s.reverse.takeWhile isWS).reverse = s := by
  unfold rstrip
  rw [← List.reverse_append, List.takeWhile_append_dropWhile,
    List.reverse_reverse]

theorem rstrip_tail_ws (s : List Char) :
    ∀ c ∈ (s.reverse.takeWhile isWS).reverse, isWS c = true := by
  intro c hc
  rw [List.mem_reverse] at hc
  exact List.mem_takeWhile_imp hc

theorem wordsOf_rstrip (s : List Char) : wordsOf (rstrip s) = wordsOf s := by
  conv_rhs => rw [← rstrip_decomp s]
  rw [wordsOf_append_ws _ _ (rstrip_tail_ws s)]

theorem rstrip_eq_nil_ws (s : List Char) (h : rstrip s = []) :
    ∀ c ∈ s, isWS c = true := by
  intro c hc
  rw [← rstrip_decomp s, h, List.nil_append] at hc
  exact rstrip_tail_ws s c hc

theorem isBlank_ws (p : List Char) (h : isBlank p = true) :
    ∀ c ∈ p, isWS c = true := by
  simpa [isBlank, List.all_eq_true] using h

/-- Shape invariant of `re.split("(\s+)")` output: chunks alternate between
non-whitespace words and nonempty whitespace runs, starting and ending at a
word position; only the first (when `b = true`) and the last word may be
empty. -/
inductive Toks : Bool → List (List Char) → Prop
  | single (b : Bool) (w : List Char) (hw : ∀ c ∈ w, isWS c = false) :
      Toks b [w]
  | cons (b : Bool) (w sp : List Char) (rest : List (List Char))
      (hne : w ≠ [] ∨ b = true) (hw : ∀ c ∈ w, isWS c = false)
      (hsp : sp ≠ []) (hsw : ∀ c ∈ sp, isWS c = true)
      (ht : Toks false rest) : Toks b (w :: sp :: rest)

theorem toks_strengthen (w : List Char) (ts : List (List Char))
    (h : Toks true (w :: ts)) (hne : w ≠ []) : Toks false (w :: ts) := by
  cases h with
  | single _ _ hw => exact Toks.single false w hw
  | cons _ _ sp rest hne2 hw hsp hsw ht =>
    exact Toks.cons false w sp rest (Or.inl hne) hw hsp hsw ht

theorem toks_tokenize (s : List Char) : Toks true (tokenize s) := by
  induction s with
  | nil => exact Toks.single true [] (by simp)
  | cons c rest ih =>
    rw [tokenize_cons]
    cases h : tokenize rest with
    | nil => exact absurd h (tokenize_ne_nil rest)
    | cons w ts =>
      rw [h] at ih
      dsimp only
      by_cases hc : isWS c = true
      · simp only [hc, if_true]
        rcases w with _ | ⟨d, w'⟩
        · rcases ts with _ | ⟨sp, ts2⟩
          · exact Toks.cons true [] [c] [[]] (Or.inr rfl) (by simp)
              (by simp) (by simp [hc]) (Toks.single false [] (by simp))
          · cases ih with
            | cons _ _ _ _ hne hw hsp hsw ht =>
              refine Toks.cons true [] (c :: sp) ts2 (Or.inr rfl) (by simp)
                (by simp) ?_ ht
              intro e he
              rcases List.mem_cons.mp he with h1 | h2
              · rw [h1]; exact hc
              · exact hsw e h2
        · have ht : Toks false ((d :: w') :: ts) :=
            toks_strengthen _ _ ih (by simp)
          refine Toks.cons true [] [c] ((d :: w') :: ts) (Or.inr rfl)
            (by simp) (by simp) ?_ ht
          intro e he
          rw [List.mem_singleton.mp he]
          exact hc
      · have hcf : isWS c = false := by simpa using hc
        simp only [hcf, Bool.false_eq_true, if_false]
        cases ih with
        | single _ _ hw =>
          refine Toks.single true (c :: w) ?_
          intro e he
          rcases List.mem_cons.mp he with h1 | h2
          · rw [h1]; exact hcf
          · exact hw e h2
        | cons _ _ sp rest' hne hw hsp hsw ht =>
          refine Toks.cons true (c :: w) sp rest' (Or.inl (by simp)) ?_ hsp
            hsw ht
          intro e he
          rcases List.mem_cons.mp he with h1 | h2
          · rw [h1]; exact hcf
          · exact hw e h2

theorem tokenize_head (c : Char) (s : List Char) (hc : isWS c = false) :
    ∃ w ts, tokenize (c :: s) = (c :: w) :: ts := by
  rw [tokenize_cons]
  cases h : tokenize s with
  | nil => exact absurd h (tokenize_ne_nil s)
  | cons w ts => exact ⟨w, ts, by simp [hc]⟩

theorem toks_tokenize_head (c : Char) (s : List Char) (hc : isWS c = false) :
    Toks false (tokenize (c :: s)) := by
  obtain ⟨w, ts, hw⟩ := tokenize_head c s hc
  have h1 : Toks true ((c :: w) :: ts) := hw ▸ toks_tokenize (c :: s)
  rw [hw]
  exact toks_strengthen _ _ h1 (by simp)

theorem wordChunks_eq (b : Bool) (ts : List (List Char)) (h : Toks b ts) :
    wordChunks ts = wordsOf ts.flatten := by
  induction h with
  | single b w hw =>
    simp only [List.flatten_cons, List.flatten_nil, List.append_nil]
    rcases eq_or_ne w [] with he | he
    · simp [he, wordChunks, wordsOf]
    · rw [wordsOf_nonws w he hw]
      simp [wordChunks, List.isEmpty_iff, he]
  | cons b w sp rest hne hw hsp hsw ht ih =>
    have hws : wsEnd (w ++ sp) := wsEnd_append w sp hsp hsw
    simp only [List.flatten_cons]
    rw [← List.append_assoc, wordsOf_append (w ++ sp) rest.flatten hws,
      wordsOf_append_ws w sp hsw, ← ih]
    show wordChunks (w :: sp :: rest) = wordsOf w ++ wordChunks rest
    rcases eq_or_ne w [] with he | he
    · simp [he, wordChunks, wordsOf]
    · rw [wordsOf_nonws w he hw]
      simp [wordChunks, List.isEmpty_iff, he]

theorem wrapLoop_nil (m : List Char → Int) (mw : Int) (current : List Char) :
    wrapLoop m mw [] current = ([], current) := rfl

theorem wrapLoop_one (m : List Char → Int) (mw : Int)
    (word current : List Char) :
    wrapLoop m mw [word] current =
      if m (current ++ word) ≤ mw then ([], current ++ word)
      else ([current], word ++ [' ']) := rfl

theorem wrapLoop_two (m : List Char → Int) (mw : Int)
    (word sp current : List Char) (rest : List (List Char)) :
    wrapLoop m mw (word :: sp :: rest) current =
      if m (current ++ word ++ sp) ≤ mw then
        wrapLoop m mw rest (current ++ word ++ sp)
      else
        (current :: (wrapLoop m mw rest (word ++ [' '])).1,
          (wrapLoop m mw rest (word ++ [' '])).2) := rfl

theorem isWS_space : isWS ' ' = true := by decide

theorem wsEnd_word_space (w : List Char) : wsEnd (w ++ [' ']) := by
  refine wsEnd_append w [' '] (by simp) ?_
  intro c hc
  rw [List.mem_singleton.mp hc]
  exact isWS_space

theorem wordsOf_word_space (w : List Char) :
    wordsOf (w ++ [' ']) = wordsOf w := by
  refine wordsOf_append_ws w [' '] ?_
  intro c hc
  rw [List.mem_singleton.mp hc]
  exact isWS_space

theorem wordsOf_eq_chunk (w : List Char) (hw : ∀ c ∈ w, isWS c = false) :
    wordsOf w = wordChunks [w] := by
  rcases eq_or_ne w [] with he | he
  · simp [he, wordChunks, wordsOf]
  · rw [wordsOf_nonws w he hw]
    simp [wordChunks, List.isEmpty_iff, he]

theorem wordChunks_cons2 (w sp : List Char) (rest : List (List Char)) :
    wordChunks (w :: sp :: rest) = wordChunks [w] ++ wordChunks rest := rfl

theorem mem_wordChunks_cons (w sp : List Char) (rest : List (List Char))
    (hne : w ≠ []) : w ∈ wordChunks (w :: sp :: rest) := by
  rw [wordChunks_cons2]
  simp [wordChunks, List.isEmpty_iff, hne]

/-- The wrap loop distributes exactly the word chunks of its token list
over the produced lines and the final current line: no word is lost,
duplicated or reordered, for any measurement function. -/
theorem wrapLoop_words (m : List Char → Int) (mw : Int) (b : Bool)
    (ts : List (List Char)) (h : Toks b ts) :
    ∀ current : List Char, wsEnd current →
      (((wrapLoop m mw ts current).1.map wordsOf).flatten ++
          wordsOf (wrapLoop m mw ts current).2) =
        wordsOf current ++ wordChunks ts := by
  induction h with
  | single b w hw =>
    intro current hcur
    rw [wrapLoop_one]
    split
    · simp only [List.map_nil, List.flatten_nil, List.nil_append]
      rw [wordsOf_append current w hcur, wordsOf_eq_chunk w hw]
    · simp only [List.map_cons, List.map_nil, List.flatten_cons,
        List.flatten_nil, List.append_nil]
      rw [wordsOf_word_space, wordsOf_eq_chunk w hw]
  | cons b w sp rest hne hw hsp hsw ht ih =>
    intro current hcur
    rw [wrapLoop_two]
    split
    · rw [ih (current ++ w ++ sp) (wsEnd_append (current ++ w) sp hsp hsw)]
      rw [wordsOf_append_ws (current ++ w) sp hsw,
        wordsOf_append current w hcur, wordChunks_cons2,
        wordsOf_eq_chunk w hw, List.append_assoc]
    · have ihr := ih (w ++ [' ']) (wsEnd_word_space w)
      rw [wordsOf_word_space, wordsOf_eq_chunk w hw] at ihr
      simp only [List.map_cons, List.flatten_cons, List.append_assoc]
      rw [ihr, wordChunks_cons2]

/-- If measurement is monotone, the current line measures within `mw`, and
every word chunk followed by one space measures within `mw`, then every
line the wrap loop pushes—and its final current line—measures within
`mw`. -/
theorem wrapLoop_fit (m : List Char → Int) (mw : Int)
    (b : Bool) (ts : List (List Char)) (h : Toks b ts) :
    b = false →
      ∀ current, m current ≤ mw →
        (∀ w ∈ wordChunks ts, m (w ++ [' ']) ≤ mw) →
        (∀ l ∈ (wrapLoop m mw ts current).1, m l ≤ mw) ∧
          m (wrapLoop m mw ts current).2 ≤ mw := by
  induction h with
  | single b w hw =>
    intro _ current hcur hch
    rw [wrapLoop_one]
    by_cases hfit : m (current ++ w) ≤ mw
    · rw [if_pos hfit]
      exact ⟨by simp, hfit⟩
    · rw [if_neg hfit]
      rcases eq_or_ne w [] with he | he
      · subst he
        rw [List.append_nil] at hfit
        exact absurd hcur hfit
      · have hwm : m (w ++ [' ']) ≤ mw := by
          refine hch w ?_
          simp [wordChunks, List.isEmpty_iff, he]
        refine ⟨?_, hwm⟩
        intro l hl
        rw [List.mem_singleton.mp hl]
        exact hcur
  | cons b w sp rest hne hw hsp hsw ht ih =>
    intro hb current hcur hch
    rcases hne with hne | hne
    · rw [wrapLoop_two]
      split
      · refine ih rfl (current ++ w ++ sp) (by assumption) ?_
        intro w' hw'
        refine hch w' ?_
        rw [wordChunks_cons2]
        exact List.mem_append_right _ hw'
      · have hwm : m (w ++ [' ']) ≤ mw :=
          hch w (mem_wordChunks_cons w sp rest hne)
        have hrest := ih rfl (w ++ [' ']) hwm (fun w' hw' => hch w'
          (by rw [wordChunks_cons2]; exact List.mem_append_right _ hw'))
        refine ⟨?_, hrest.2⟩
        intro l hl
        rcases List.mem_cons.mp hl with h1 | h2
        · rw [h1]; exact hcur
        · exact hrest.1 l h2
    · rw [hb] at hne
      exact absurd hne (by simp)

/-- If the whole remaining text (current line plus every remaining token)
measures within `mw`, the loop commits everything into one line. -/
theorem wrapLoop_takes_all (m : List Char → Int) (mw : Int) (hm : MonoM m)
    (b : Bool) (ts : List (List Char)) (h : Toks b ts) :
    ∀ current, m (current ++ ts.flatten) ≤ mw →
      wrapLoop m mw ts current = ([], current ++ ts.flatten) := by
  induction h with
  | single b w hw =>
    intro current hfit
    simp only [List.flatten_cons, List.flatten_nil, List.append_nil] at hfit ⊢
    rw [wrapLoop_one, if_pos hfit]
  | cons b w sp rest hne hw hsp hsw ht ih =>
    intro current hfit
    simp only [List.flatten_cons] at hfit ⊢
    have hassoc : current ++ (w ++ (sp ++ rest.flatten)) =
        (current ++ w ++ sp) ++ rest.flatten := by
      simp [List.append_assoc]
    rw [hassoc] at hfit
    have htest : m (current ++ w ++ sp) ≤ mw :=
      le_trans (hm (current ++ w ++ sp) rest.flatten) hfit
    rw [wrapLoop_two, if_pos htest, ih (current ++ w ++ sp) hfit, hassoc]

theorem takeWhile_ws (p : List Char) : ∀ c ∈ p.takeWhile isWS, isWS c = true :=
  fun _ hc => List.mem_takeWhile_imp hc

theorem wsEnd_indent (p : List Char) : wsEnd (p.takeWhile isWS) :=
  wsEnd_all_ws _ (takeWhile_ws p)

theorem wrapParagraph_eq (m : List Char → Int) (mw : Int) (p : List Char) :
    wrapParagraph m mw p =
      (wrapLoop m mw (tokenize (p.dropWhile isWS)) (p.takeWhile isWS)).1 ++
        (if (rstrip (wrapLoop m mw (tokenize (p.dropWhile isWS))
              (p.takeWhile isWS)).2).isEmpty then []
          else [rstrip (wrapLoop m mw (tokenize (p.dropWhile isWS))
              (p.takeWhile isWS)).2]) := rfl

theorem final_line_words (cur : List Char) :
    ((if (rstrip cur).isEmpty then ([] : List (List Char))
        else [rstrip cur]).map wordsOf).flatten = wordsOf cur := by
  by_cases h : (rstrip cur).isEmpty = true
  · rw [if_pos h]
    rw [List.isEmpty_iff] at h
    rw [wordsOf_all_ws cur (rstrip_eq_nil_ws cur h)]
    simp
  · rw [if_neg h]
    simp [wordsOf_rstrip]

theorem wordsOf_dropWhile (p : List Char) :
    wordsOf (p.dropWhile isWS) = wordsOf p := by
  conv_rhs => rw [← List.takeWhile_append_dropWhile isWS p]
  rw [wordsOf_append _ _ (wsEnd_indent p),
    wordsOf_all_ws _ (takeWhile_ws p), List.nil_append]

/-- One paragraph's wrapped lines carry exactly the paragraph's words. -/
theorem wrapParagraph_words (m : List Char → Int) (mw : Int) (p : List Char) :
    ((wrapParagraph m mw p).map wordsOf).flatten = wordsOf p := by
  have hmain := wrapLoop_words m mw true (tokenize (p.dropWhile isWS))
    (toks_tokenize _) (p.takeWhile isWS) (wsEnd_indent p)
  rw [wordChunks_eq true _ (toks_tokenize _), join_tokenize,
    wordsOf_all_ws _ (takeWhile_ws p), List.nil_append] at hmain
  rw [wrapParagraph_eq, List.map_append, List.flatten_append,
    final_line_words, hmain, wordsOf_dropWhile]

theorem wrapFold_words (m : List Char → Int) (mw : Int) :
    ∀ (ps : List (List Char)) (acc : List (List Char)),
      ((ps.foldl (fun lines p =>
          if isBlank p then (if lines.isEmpty then lines else lines ++ [[]])
          else lines ++ wrapParagraph m mw p) acc).map wordsOf).flatten
        = (acc.map wordsOf).flatten ++ (ps.map wordsOf).flatten := by
  intro ps
  induction ps with
  | nil => intro acc; simp
  | cons p ps' ih =>
    intro acc
    rw [List.foldl_cons, ih]
    by_cases hb : isBlank p = true
    · rw [if_pos hb]
      simp only [List.map_cons, List.flatten_cons,
        wordsOf_all_ws p (isBlank_ws p hb), List.nil_append]
      by_cases he : acc.isEmpty = true
      · rw [if_pos he]
      · rw [if_neg he]
        simp [wordsOf]
    · rw [if_neg hb]
      simp [wrapParagraph_words, List.append_assoc]

theorem isWS_newline : isWS '\n' = true := by decide

theorem wordsOf_append_cons_ws (a b : List Char) (c : Char)
    (hc : isWS c = true) : wordsOf (a ++ c :: b) = wordsOf a ++ wordsOf b := by
  have h1 : a ++ c :: b = (a ++ [c]) ++ b := by simp
  have h2 : ∀ e ∈ [c], isWS e = true := by
    intro e he
    rw [List.mem_singleton.mp he]
    exact hc
  rw [h1, wordsOf_append (a ++ [c]) b (wsEnd_append a [c] (by simp) h2),
    wordsOf_append_ws a [c] h2]

theorem split_first_newline (s : List Char) (hs : '\n' ∈ s) :
    ∃ p s', s = p ++ '\n' :: s' ∧ '\n' ∉ p := by
  induction s with
  | nil => cases hs
  | cons c rest ih =>
    by_cases hc : c = '\n'
    · exact ⟨[], rest, by rw [hc, List.nil_append], by simp⟩
    · have hr : '\n' ∈ rest := by
        rcases List.mem_cons.mp hs with h | h
        · exact absurd h.symm hc
        · exact h
      obtain ⟨p, s', hps, hnp⟩ := ih hr
      refine ⟨c :: p, s', by rw [hps, List.cons_append], ?_⟩
      rw [List.mem_cons, not_or]
      exact ⟨fun h => hc h.symm, hnp⟩

theorem splitOn_words_aux :
    ∀ (n : Nat) (s : List Char), s.length ≤ n →
      ((splitOn '\n' s).map wordsOf).flatten = wordsOf s := by
  intro n
  induction n with
  | zero =>
    intro s hs
    have h0 : s = [] := List.length_eq_zero.mp (Nat.le_zero.mp hs)
    subst h0
    simp [splitOn, wordsOf]
  | succ n ih =>
    intro s hs
    by_cases hnl : '\n' ∈ s
    · obtain ⟨p, s', rfl, hnp⟩ := split_first_newline s hnl
      rw [splitOn_append '\n' p s' hnp, List.map_cons, List.flatten_cons]
      have hlen : s'.length ≤ n := by
        rw [List.length_append, List.length_cons] at hs
        omega
      rw [ih s' hlen, wordsOf_append_cons_ws p s' '\n' isWS_newline]
    · rw [splitOn_eq_single '\n' s hnl]
      simp

theorem splitOn_words (s : List Char) :
    ((splitOn '\n' s).map wordsOf).flatten = wordsOf s :=
  splitOn_words_aux s.length s le_rfl

theorem dropWhile_head_false :
    ∀ (l : List Char) (c : Char) (rest : List Char),
      l.dropWhile isWS = c :: rest → isWS c = false := by
  intro l
  induction l with
  | nil =>
    intro c rest h
    simp at h
  | cons d l' ih =>
    intro c rest h
    rw [List.dropWhile_cons] at h
    by_cases hd : isWS d = true
    · rw [if_pos hd] at h
      exact ih c rest h
    · rw [if_neg hd] at h
      injection h with h1 _
      rw [← h1]
      simpa using hd

theorem toks_tokenize_body (p : List Char) :
    Toks false (tokenize (p.dropWhile isWS)) := by
  cases hbody : p.dropWhile isWS with
  | nil => exact Toks.single false [] (by simp)
  | cons c rest =>
    exact toks_tokenize_head c rest (dropWhile_head_false p c rest hbody)

theorem rstrip_fit (m : List Char → Int) (mw : Int) (hm : MonoM m)
    (cur : List Char) (h : m cur ≤ mw) : m (rstrip cur) ≤ mw := by
  have h1 : m (rstrip cur) ≤ m cur := by
    conv_rhs => rw [← rstrip_decomp cur]
    exact hm _ _
  exact le_trans h1 h

/-- All lines produced for one paragraph fit, given monotone measurement,
a fitting indent and fitting word-plus-one-space chunks. -/
theorem wrapParagraph_fit (m : List Char → Int) (mw : Int) (hm : MonoM m)
    (p : List Char) (hind : m (p.takeWhile isWS) ≤ mw)
    (hwords : ∀ w ∈ wordsOf p, m (w ++ [' ']) ≤ mw) :
    ∀ l ∈ wrapParagraph m mw p, m l ≤ mw := by
  have htoks := toks_tokenize_body p
  have hch : ∀ w ∈ wordChunks (tokenize (p.dropWhile isWS)),
      m (w ++ [' ']) ≤ mw := by
    intro w hw
    rw [wordChunks_eq false _ htoks, join_tokenize,
      wordsOf_dropWhile p] at hw
    exact hwords w hw
  have hfit := wrapLoop_fit m mw false _ htoks rfl (p.takeWhile isWS)
    hind hch
  intro l hl
  rw [wrapParagraph_eq] at hl
  rcases List.mem_append.mp hl with h1 | h2
  · exact hfit.1 l h1
  · split at h2
    · cases h2
    · rw [List.mem_singleton.mp h2]
      exact rstrip_fit m mw hm _ hfit.2

theorem m_nil_le (m : List Char → Int) (mw : Int) (hm : MonoM m)
    (p : List Char) (h : m p ≤ mw) : m [] ≤ mw :=
  le_trans (by simpa using hm [] p) h

theorem wrapFold_fit (m : List Char → Int) (mw : Int) (hm : MonoM m) :
    ∀ ps : List (List Char),
      (∀ p ∈ ps, m (p.takeWhile isWS) ≤ mw ∧
        ∀ w ∈ wordsOf p, m (w ++ [' ']) ≤ mw) →
      ∀ acc, (∀ l ∈ acc, m l ≤ mw) →
        ∀ l ∈ ps.foldl (fun lines p =>
            if isBlank p then (if lines.isEmpty then lines else lines ++ [[]])
            else lines ++ wrapParagraph m mw p) acc, m l ≤ mw := by
  intro ps
  induction ps with
  | nil =>
    intro _ acc hacc l hl
    exact hacc l hl
  | cons p ps' ih =>
    intro hps acc hacc
    rw [List.foldl_cons]
    refine ih (fun q hq => hps q (List.mem_cons_of_mem p hq)) _ ?_
    have hp := hps p (List.mem_cons_self p ps')
    by_cases hb : isBlank p = true
    · rw [if_pos hb]
      have hwp : p.takeWhile isWS = p :=
        List.takeWhile_eq_self_iff.mpr (isBlank_ws p hb)
      have hnil : m [] ≤ mw := m_nil_le m mw hm p (hwp ▸ hp.1)
      by_cases he : acc.isEmpty = true
      · rw [if_pos he]
        exact hacc
      · rw [if_neg he]
        intro l hl
        rcases List.mem_append.mp hl with h1 | h2
        · exact hacc l h1
        · rw [List.mem_singleton.mp h2]
          exact hnil
    · rw [if_neg hb]
      intro l hl
      rcases List.mem_append.mp hl with h1 | h2
      · exact hacc l h1
      · exact wrapParagraph_fit m mw hm p hp.1 hp.2 l h2

theorem rstrip_nonblank (p : List Char) (h : isBlank p = false) :
    ¬ ((rstrip p).isEmpty = true) := by
  intro he
  rw [List.isEmpty_iff] at he
  have hall := rstrip_eq_nil_ws p he
  have hb : isBlank p = true := by
    unfold isBlank
    rw [List.all_eq_true]
    intro x hx
    exact hall x hx
  rw [hb] at h
  cases h

/-- A non-blank paragraph that fits whole is emitted as the single line
`p.rstrip()` (indent included, trailing whitespace stripped). -/
theorem wrapParagraph_single_line (m : List Char → Int) (mw : Int)
    (hm : MonoM m) (p : List Char) (hnb : isBlank p = false)
    (hfit : m p ≤ mw) : wrapParagraph m mw p = [rstrip p] := by
  have hjoin : (tokenize (p.dropWhile isWS)).flatten = p.dropWhile isWS :=
    join_tokenize _
  have hfit2 : m (p.takeWhile isWS ++
      (tokenize (p.dropWhile isWS)).flatten) ≤ mw := by
    rw [hjoin, List.takeWhile_append_dropWhile]
    exact hfit
  rw [wrapParagraph_eq,
    wrapLoop_takes_all m mw hm false _ (toks_tokenize_body p) _ hfit2]
  simp only [hjoin, List.takeWhile_append_dropWhile]
  rw [List.nil_append, if_neg (rstrip_nonblank p hnb)]

theorem wrapFold_blank (m : List Char → Int) (mw : Int) :
    ∀ ps : List (List Char), (∀ p ∈ ps, isBlank p = true) →
      ps.foldl (fun lines p =>
        if isBlank p then (if lines.isEmpty then lines else lines ++ [[]])
        else lines ++ wrapParagraph m mw p) [] = [] := by
  intro ps
  induction ps with
  | nil => intro _; rfl
  | cons p ps' ih =>
    intro h
    rw [List.foldl_cons, if_pos (h p (List.mem_cons_self p ps'))]
    simp only [List.isEmpty_nil, if_true]
    exact ih (fun q hq => h q (List.mem_cons_of_mem p hq))

/-- Any input all of whose paragraphs are blank wraps to zero lines. -/
theorem wrap_text_all_blank (m : List Char → Int) (mw : Int)
    (text : List Char) (h : ∀ p ∈ splitOn '\n' text, isBlank p = true) :
    wrap_text m mw text = [] := by
  unfold wrap_text
  exact wrapFold_blank m mw (splitOn '\n' text) h

/-! ### The viewer session (`TextWindowRenderer`, `TextWindow`)

Geometry is modelled over `Int`; the raylib rectangles carry position and
size.  The threaded render loop is modelled as the sequence of collaborator
effects the background task performs, with each frame of `gui_app.render()`
described by the stop-flag value the loop reads and whether
`renderer.render()` raises on that frame. -/

structure Rect where
  x : Int
  y : Int
  w : Int
  h : Int
deriving DecidableEq

def MARGIN : Int := 8

def FONT_SIZE : Int := 64

def LINE_HEIGHT : Int := 72

structure RendererState where
  textarea : Rect
  wrappedLines : List (List Char)
  content : Rect
  scrollOffsetY : Int
deriving DecidableEq

/-- `TextWindowRenderer.__init__`: textarea rectangle from the app
dimensions, wrapped lines at width `textarea.w - 20`, content rectangle of
one `LINE_HEIGHT` per wrapped line, and the scroll offset override
`-max(content.h - textarea.h, 0)`. -/
def rendererInit (m : List Char → Int) (appW appH : Int)
    (text : List Char) : RendererState :=
  let textarea : Rect := ⟨MARGIN, 0, appW - MARGIN, appH⟩
  let wrapped := wrap_text m (textarea.w - 20) text
  let content : Rect := ⟨0, 0, textarea.w - 20, wrapped.length * LINE_HEIGHT⟩
  ⟨textarea, wrapped, content, -(max (content.h - textarea.h) 0)⟩

/-- Observable collaborator effects of the background task `_run`. -/
inductive Effect
  | initWindow
  | publishRenderer
  | renderFrame
  | closeWindow
deriving DecidableEq

/-- One frame of the render loop: the stop-flag value the loop reads at
the top of the iteration, and whether rendering this frame raises. -/
structure Frame where
  stopSeen : Bool
  renderRaises : Bool

/-- The `for _ in gui_app.render()` loop body: stop when the stop flag is
seen, abort on a rendering exception, otherwise render and continue. -/
def loopEffects : List Frame → List Effect
  | [] => []
  | f :: rest =>
    if f.stopSeen then []
    else if f.renderRaises then []
    else Effect.renderFrame :: loopEffects rest

/-- `TextWindow._run`: immediate return when the CI environment flag is
set; otherwise open the window, publish the renderer, run the render loop,
and (via `try/finally`) close the window on every exit of the loop. -/
def runEffects (ciFlagSet : Bool) (frames : List Frame) : List Effect :=
  if ciFlagSet then []
  else
    Effect.initWindow :: Effect.publishRenderer ::
      (loopEffects frames ++ [Effect.closeWindow])

/-- The cross-thread state of a `TextWindow` session as seen by `close`. -/
structure SessionState where
  threadAlive : Bool
  stopEventSet : Bool
  rendererPublished : Bool
deriving DecidableEq

/-- Actions `TextWindow.close` performs on its collaborators. -/
inductive CloseAction
  | setStopEvent
  | joinThread
  | warnJoinFailed
deriving DecidableEq

/-- `TextWindow.close`: a no-op unless the worker thread is still alive;
otherwise set the stop event and join with a bounded timeout, leaving a
warning when the join times out (`joinFinishes = false`). -/
def close (joinFinishes : Bool) (s : SessionState) :
    SessionState × List CloseAction :=
  if s.threadAlive then
    if joinFinishes then
      (⟨false, true, s.rendererPublished⟩,
        [CloseAction.setStopEvent, CloseAction.joinThread])
    else
      (⟨true, true, s.rendererPublished⟩,
        [CloseAction.setStopEvent, CloseAction.joinThread,
          CloseAction.warnJoinFailed])
  else (s, [])

/-- Session state once the background task has finished. -/
def sessionAfterRun (ciFlagSet : Bool) (frames : List Frame) : SessionState :=
  ⟨false, false, Effect.publishRenderer ∈ runEffects ciFlagSet frames⟩

/-- The constructor's readiness busy-wait
(`while self._renderer is None and self._thread.is_alive()`) terminates
exactly when the renderer is published or the thread has died. -/
def constructionReturns (s : SessionState) : Prop :=
  s.rendererPublished = true ∨ s.threadAlive = false

theorem loopEffects_no_close (frames : List Frame) :
    Effect.closeWindow ∉ loopEffects frames := by
  induction frames with
  | nil => simp [loopEffects]
  | cons f rest ih =>
    unfold loopEffects
    split
    · simp
    · split
      · simp
      · intro h
        rcases List.mem_cons.mp h with h1 | h2
        · exact Effect.noConfusion h1
        · exact ih h2

/-! ### The claims -/

/-- Claim C1, counterexample: with the monotone measurement `lenM` and
`maxWidth = 2`, the paragraph `"abcd"` is wider than `maxWidth`, yet
`wrap_text` returns the display line `"abcd"` of measured width `4 > 2`,
so wrapping can produce an overflowing line even under monotone
measurement. -/
theorem C1_counterexample :
    MonoM lenM ∧ lenM ['a', 'b', 'c', 'd'] > 2 ∧
      ['a', 'b', 'c', 'd'] ∈ wrap_text lenM 2 ['a', 'b', 'c', 'd'] :=
  ⟨lenM_mono, by decide, by decide⟩

/-- Claim C1 (amended): with measurement monotone under string extension,
if additionally every paragraph's leading-whitespace indent measures
within `maxWidth` and every word of the text followed by one space
measures within `maxWidth`, then every display line returned by
`wrap_text` measures within `maxWidth`. -/
theorem C1_amended (m : List Char → Int) (mw : Int) (text : List Char)
    (hm : MonoM m)
    (hind : ∀ p ∈ splitOn '\n' text, m (p.takeWhile isWS) ≤ mw)
    (hwords : ∀ w ∈ wordsOf text, m (w ++ [' ']) ≤ mw) :
    ∀ l ∈ wrap_text m mw text, m l ≤ mw := by
  unfold wrap_text
  refine wrapFold_fit m mw hm (splitOn '\n' text) ?_ [] (by simp)
  intro p hp
  refine ⟨hind p hp, ?_⟩
  intro w hw
  refine hwords w ?_
  rw [← splitOn_words text]
  exact List.mem_flatten_of_mem (List.mem_map_of_mem wordsOf hp) hw

theorem C1_witness :
    MonoM lenM ∧
      (∀ l ∈ wrap_text lenM 10 (String.toList "  hi there world"),
        lenM l ≤ 10) :=
  ⟨lenM_mono,
    C1_amended lenM 10 (String.toList "  hi there world") lenM_mono
      (by decide) (by decide)⟩

/-- Claim C2, counterexample: `wrap_text "\na"` yields `["a"]`, not
`["", "a"]`, although `"a"` measures within `maxWidth`: the code
suppresses every blank paragraph met while no line has been emitted yet.
Moreover the whitespace-only input `" "` also yields zero lines, so not
only the truly empty input does. -/
theorem C2_counterexample :
    wrap_text lenM 100 ['\n', 'a'] = [['a']] ∧ lenM ['a'] ≤ 100 ∧
      wrap_text lenM 100 [' '] = [] ∧ [' '] ≠ ([] : List Char) :=
  ⟨by decide, by decide, by decide, by decide⟩

/-- Claim C2 (amended): `wrap_text "\na"` returns `["a"]` whenever `"a"`
measures within `maxWidth` — a leading blank paragraph is suppressed
because no display line has been emitted yet — and any input all of whose
paragraphs are blank (empty or whitespace-only) yields zero lines. -/
theorem C2_amended (m : List Char → Int) (mw : Int) (h : m ['a'] ≤ mw) :
    wrap_text m mw ['\n', 'a'] = [['a']] ∧
      ∀ text : List Char, (∀ p ∈ splitOn '\n' text, isBlank p = true) →
        wrap_text m mw text = [] := by
  constructor
  · have hwp : wrapParagraph m mw ['a'] = [['a']] := by
      rw [wrapParagraph_eq]
      have htak : (['a'] : List Char).takeWhile isWS = [] := rfl
      have hdrop : (['a'] : List Char).dropWhile isWS = ['a'] := rfl
      rw [htak, hdrop]
      have htok : tokenize ['a'] = [['a']] := rfl
      rw [htok, wrapLoop_one, List.nil_append, if_pos h]
      rfl
    unfold wrap_text
    have hsplit : splitOn '\n' ['\n', 'a'] = [[], ['a']] := rfl
    rw [hsplit, List.foldl_cons, List.foldl_cons, List.foldl_nil]
    have hblank : isBlank ([] : List Char) = true := rfl
    have hnb : ¬ (isBlank ['a'] = true) := by decide
    rw [if_pos hblank]
    simp only [List.isEmpty_nil, if_true]
    rw [if_neg hnb, hwp, List.nil_append]
  · exact fun text ht => wrap_text_all_blank m mw text ht

theorem C2_witness :
    lenM ['a'] ≤ 100 ∧
      (wrap_text lenM 100 ['\n', 'a'] = [['a']] ∧
        ∀ text : List Char, (∀ p ∈ splitOn '\n' text, isBlank p = true) →
          wrap_text lenM 100 text = []) :=
  ⟨by decide, C2_amended lenM 100 (by decide)⟩

/-- Claim C3: `wrap_text` applied to the empty string returns the empty
sequence of display lines — not a sequence containing one empty string —
for every measurement function and width. -/
theorem C3_empty_input (m : List Char → Int) (mw : Int) :
    wrap_text m mw [] = [] := rfl

/-- Claim C4, counterexample: the whitespace-only input `" "` is a
paragraph with no internal newline that measures within `maxWidth = 100`
under the monotone measurement `lenM`, yet `wrap_text` returns zero
display lines rather than exactly one. -/
theorem C4_counterexample :
    MonoM lenM ∧ '\n' ∉ [' '] ∧ lenM [' '] ≤ 100 ∧
      wrap_text lenM 100 [' '] = [] :=
  ⟨lenM_mono, by decide, by decide, by decide⟩

/-- Claim C4 (amended): for every non-blank paragraph (containing at
least one non-whitespace character) with no internal newline whose full
text measures within `maxWidth` under a monotone measurement, `wrap_text`
returns exactly one display line: the paragraph with its trailing
whitespace stripped and its leading indent preserved. -/
theorem C4_amended (m : List Char → Int) (mw : Int) (text : List Char)
    (hm : MonoM m) (hnl : '\n' ∉ text) (hnb : isBlank text = false)
    (hfit : m text ≤ mw) : wrap_text m mw text = [rstrip text] := by
  unfold wrap_text
  rw [splitOn_eq_single '\n' text hnl, List.foldl_cons, List.foldl_nil]
  rw [if_neg (by rw [hnb]; simp : ¬ (isBlank text = true))]
  rw [wrapParagraph_single_line m mw hm text hnb hfit, List.nil_append]

theorem C4_witness :
    MonoM lenM ∧
      wrap_text lenM 100 (String.toList " ab c  ") =
        [rstrip (String.toList " ab c  ")] :=
  ⟨lenM_mono,
    C4_amended lenM 100 (String.toList " ab c  ") lenM_mono (by decide)
      (by decide) (by decide)⟩

/-- Claim C5: the words of the display lines returned by `wrap_text`,
concatenated in output order (blank-line markers contributing no words),
are exactly the words of the original text, for every measurement
function and width: no word is dropped, duplicated or reordered. -/
theorem C5_words_preserved (m : List Char → Int) (mw : Int)
    (text : List Char) :
    ((wrap_text m mw text).map wordsOf).flatten = wordsOf text := by
  unfold wrap_text
  rw [wrapFold_words m mw (splitOn '\n' text) [], List.map_nil,
    List.flatten_nil, List.nil_append]
  exact splitOn_words text

/-- Claim C6: after `TextWindowRenderer` construction the initial
vertical scroll offset equals `-(content.h - textarea.h)` when the
content rectangle is taller than the viewport rectangle, and `0` when the
content is shorter than or equal to the viewport: the content starts at
its bottom-most scroll position, clamped at zero. -/
theorem C6_initial_scroll (m : List Char → Int) (appW appH : Int)
    (text : List Char) :
    (rendererInit m appW appH text).scrollOffsetY =
      if (rendererInit m appW appH text).content.h >
          (rendererInit m appW appH text).textarea.h then
        -((rendererInit m appW appH text).content.h -
            (rendererInit m appW appH text).textarea.h)
      else 0 := by
  unfold rendererInit
  dsimp only
  split <;> omega

/-- Claim C7: `close` on a session whose worker thread has already
finished (already closed, or skipped under the headless flag) is an
idempotent no-op: it performs no stop-event set, no join, and leaves the
session state unchanged, also under repeated calls. -/
theorem C7_close_idempotent (jf jf' : Bool) (s : SessionState)
    (h : s.threadAlive = false) :
    close jf s = (s, []) ∧ close jf' (close jf s).1 = (s, []) := by
  have h1 : close jf s = (s, []) := by
    unfold close
    rw [h]
    simp
  refine ⟨h1, ?_⟩
  rw [h1]
  unfold close
  rw [h]
  simp

theorem C7_witness :
    (⟨false, true, true⟩ : SessionState).threadAlive = false ∧
      (close true ⟨false, true, true⟩ =
          ((⟨false, true, true⟩ : SessionState), []) ∧
        close false (close true (⟨false, true, true⟩ : SessionState)).1 =
          ((⟨false, true, true⟩ : SessionState), [])) :=
  ⟨rfl, C7_close_idempotent true false ⟨false, true, true⟩ rfl⟩

/-- Claim C8: with the headless/CI flag set, the background task performs
no effect at all — it opens no window, publishes no renderer and renders
no frame — and the session still satisfies the readiness protocol
(construction returns because the thread has died) and the close
protocol (close is a non-blocking no-op). -/
theorem C8_headless_noop (frames : List Frame) (jf : Bool) :
    runEffects true frames = [] ∧
      Effect.initWindow ∉ runEffects true frames ∧
      Effect.renderFrame ∉ runEffects true frames ∧
      (sessionAfterRun true frames).rendererPublished = false ∧
      constructionReturns (sessionAfterRun true frames) ∧
      close jf (sessionAfterRun true frames) =
        (sessionAfterRun true frames, []) := by
  have hrun : runEffects true frames = [] := by
    unfold runEffects
    simp
  refine ⟨hrun, by rw [hrun]; simp, by rw [hrun]; simp, ?_, ?_, ?_⟩
  · unfold sessionAfterRun
    rw [hrun]
    simp
  · exact Or.inr rfl
  · unfold close sessionAfterRun
    simp

/-- Claim C9: for every frame sequence — covering the stop-flag exit, the
frames-exhausted exit (window closed) and the rendering-exception exit —
the non-headless background task invokes the window-close operation
exactly once, as its final effect before the task finishes. -/
theorem C9_close_exactly_once (frames : List Frame) :
    (runEffects false frames).count Effect.closeWindow = 1 ∧
      (runEffects false frames).getLast? = some Effect.closeWindow := by
  have hnc := loopEffects_no_close frames
  constructor
  · show (Effect.initWindow :: Effect.publishRenderer ::
      (loopEffects frames ++ [Effect.closeWindow])).count
        Effect.closeWindow = 1
    rw [List.count_cons, List.count_cons, List.count_append,
      List.count_eq_zero.mpr hnc]
    simp
  · show (Effect.initWindow :: Effect.publishRenderer ::
      (loopEffects frames ++ [Effect.closeWindow])).getLast? =
        some Effect.closeWindow
    rw [show Effect.initWindow :: Effect.publishRenderer ::
        (loopEffects frames ++ [Effect.closeWindow]) =
        (Effect.initWindow :: Effect.publishRenderer ::
          loopEffects frames) ++ [Effect.closeWindow] from by simp]
    exact List.getLast?_concat _

/-- Claim C10: `wrap_text` can emit an empty display line from a
non-blank paragraph: for the paragraph `"abcd x"`, which has no leading
whitespace and whose first word plus following whitespace token `"abcd "`
already measures wider than `maxWidth = 3`, the initial empty current
line is pushed, and the empty string is the first element of the
output. -/
theorem C10_empty_line_from_nonblank :
    isBlank (String.toList "abcd x") = false ∧
      (String.toList "abcd x").takeWhile isWS = [] ∧
      lenM (String.toList "abcd ") > 3 ∧
      wrap_text lenM 3 (String.toList "abcd x") =
        [[], String.toList "abcd ", ['x']] :=
  ⟨by decide, by decide, by decide, by decide⟩

end OpenpilotText
